import Mathlib

set_option maxHeartbeats 1000000

/-
Verification of the PNG → JPG/WebP converter with Stable-Diffusion metadata
round-tripping (image_processor_and_converter.py, exif_metadata_debugger.py).
Text is modelled as `List Char` (Python `str`), byte strings as `List Nat`.
All definitions are shallow embeddings of the Python source; regular
expressions are translated to explicit scanning functions whose semantics is
justified in the accompanying comments.
-/

/-- Characters treated as whitespace by Python's `str.strip` and by the regex
class `\s` on `str` patterns: ASCII whitespace, the C1 separator controls,
NEL, NBSP and the Unicode space characters. -/
def pyIsSpace (c : Char) : Bool :=
  c == ' ' || c == '\t' || c == '\n' || c == '\r' || c.toNat == 0xb || c.toNat == 0xc ||
  (0x1c ≤ c.toNat && c.toNat ≤ 0x1f) || c.toNat == 0x85 || c.toNat == 0xa0 ||
  c.toNat == 0x1680 || (0x2000 ≤ c.toNat && c.toNat ≤ 0x200a) ||
  c.toNat == 0x2028 || c.toNat == 0x2029 || c.toNat == 0x202f || c.toNat == 0x205f ||
  c.toNat == 0x3000

/-- Python `str.lstrip()`. -/
def pyStripLeft (l : List Char) : List Char := l.dropWhile pyIsSpace

/-- Python right strip: drop trailing whitespace. -/
def pyStripRight (l : List Char) : List Char := (l.reverse.dropWhile pyIsSpace).reverse

/-- Python `str.strip()`: drop whitespace at both ends (realised right-then-left,
which yields the same string). -/
def pyStrip (l : List Char) : List Char := pyStripLeft (pyStripRight l)

/-- Literal prefix test on character lists (used for translated regex literals
and Python `str.startswith`). -/
def startsWithL : List Char → List Char → Bool
  | [], _ => true
  | _ :: _, [] => false
  | p :: ps, c :: cs => p == c && startsWithL ps cs

/-- Case-insensitive literal prefix test: `re.IGNORECASE` matching of an
escaped literal pattern (the stop words are ASCII, where `re.IGNORECASE`
coincides with lower-case folding). -/
def ciStartsWith : List Char → List Char → Bool
  | [], _ => true
  | _ :: _, [] => false
  | p :: ps, c :: cs => p.toLower == c.toLower && ciStartsWith ps cs

/-- Does the Bool-valued predicate hold on some suffix of the list?  This is
the search loop of `re.search`: try every start position left to right. -/
def anySuffix (p : List Char → Bool) : List Char → Bool
  | [] => p []
  | c :: rest => p (c :: rest) || anySuffix p rest

/-- Index of the first suffix on which the predicate holds (`re.search` match
start position). -/
def findIdx? (p : List Char → Bool) : List Char → Option Nat
  | [] => if p [] then some 0 else none
  | c :: rest => if p (c :: rest) then some 0 else (findIdx? p rest).map (· + 1)

/-- First occurrence index of a literal substring (leftmost match of an
escaped literal pattern). -/
def findSub (pat : List Char) (l : List Char) : Option Nat :=
  findIdx? (fun s => startsWithL pat s) l

/-- Scanner underlying `replaceAll`, with explicit fuel. -/
def replaceAllF (pat repl : List Char) : Nat → List Char → List Char
  | _, [] => []
  | 0, l => l
  | fuel + 1, c :: rest =>
    if 0 < pat.length ∧ startsWithL pat (c :: rest) = true then
      repl ++ replaceAllF pat repl fuel (rest.drop (pat.length - 1))
    else
      c :: replaceAllF pat repl fuel rest

/-- Python `str.replace(pat, repl)`: replace every occurrence, scanning left to
right without overlap.  The fuel argument, bounded below by the number of scan
steps, keeps the recursion structural; all call sites pass a non-empty
pattern, for which this scanner is exact (for an empty pattern it returns the
input unchanged). -/
def replaceAll (pat repl : List Char) (l : List Char) : List Char :=
  replaceAllF pat repl l.length l

/-- The loop body substitution `re.sub(re.escape(word), " ", core, flags=re.IGNORECASE)`:
replace every case-insensitive occurrence of the literal `pat` by one space,
scanning left to right without overlap.  For the empty pattern `re.sub`
inserts the replacement at every position boundary.  The fuel argument,
bounded below by the number of scan steps, keeps the recursion structural. -/
def ciSubSpaceF (pat : List Char) : Nat → List Char → List Char
  | _, [] => if pat.isEmpty then [' '] else []
  | 0, l => l
  | fuel + 1, c :: rest =>
    if pat.isEmpty then ' ' :: c :: ciSubSpaceF pat fuel rest
    else if ciStartsWith pat (c :: rest) then
      ' ' :: ciSubSpaceF pat fuel (rest.drop (pat.length - 1))
    else c :: ciSubSpaceF pat fuel rest

def ciSubSpace (pat : List Char) (l : List Char) : List Char :=
  ciSubSpaceF pat l.length l

/-- The whitespace collapse `re.sub(r'\s+', ' ', s)`: every maximal run of
whitespace characters becomes a single space. -/
def collapseWS : List Char → List Char
  | [] => []
  | [c] => if pyIsSpace c then [' '] else [c]
  | c :: d :: rest =>
    if pyIsSpace c && pyIsSpace d then collapseWS (d :: rest)
    else (if pyIsSpace c then ' ' else c) :: collapseWS (d :: rest)

/-- The flattening used for comparison columns:
`s.replace('\n', ' ').replace('\r', ' ').strip()`. -/
def flattenNoNewlines (s : List Char) : List Char :=
  pyStrip (replaceAll ['\r'] [' '] (replaceAll ['\n'] [' '] s))

/- ------------------------------------------------------------------ -/
/- Metadata block extraction (process_single_image, stages 2 and 3).   -/
/- ------------------------------------------------------------------ -/

/-- Sentinel `"没有扫描到生成信息"` (no generation info found). -/
def noInfoSentinel : List Char := "没有扫描到生成信息".toList

/-- Sentinel `"未找到模型"` (model not found). -/
def modelSentinel : List Char := "未找到模型".toList

/-- Sentinel `"核心词为空"` (core term empty). -/
def emptyCoreSentinel : List Char := "核心词为空".toList

/-- Characters removed by openpyxl's `ILLEGAL_CHARACTERS_RE`
(`[\000-\010]|[\013-\014]|[\016-\037]`). -/
def isIllegalXmlChar (c : Char) : Bool :=
  c.toNat ≤ 8 || c.toNat == 11 || c.toNat == 12 || (14 ≤ c.toNat && c.toNat ≤ 31)

/-- Stage-2 preprocessing: remove illegal XML characters, then strip a leading
plain-text `UNICODE` token (7 characters) followed by `lstrip`. -/
def cleanedMetadata (raw : List Char) : List Char :=
  let cleaned := raw.filter (fun c => !isIllegalXmlChar c)
  if startsWithL ("UNICODE".toList) cleaned then pyStripLeft (cleaned.drop 7) else cleaned

/-- The label literal `"Negative prompt:"`. -/
def negLabel : List Char := "Negative prompt:".toList

/-- Does one of the anchor alternatives of `sd_full_info_pattern`
(`masterpiece|score_\d|1girl|BREAK|Negative prompt:|Steps:`) match at the head
of the list? -/
def anchorAt (s : List Char) : Bool :=
  startsWithL ("masterpiece".toList) s ||
  (startsWithL ("score_".toList) s &&
    (match s.drop 6 with | c :: _ => c.isDigit | [] => false)) ||
  startsWithL ("1girl".toList) s ||
  startsWithL ("BREAK".toList) s ||
  startsWithL negLabel s ||
  startsWithL ("Steps:".toList) s

/-- Does an anchor alternative match anywhere in the string? -/
def containsAnchor : List Char → Bool := anySuffix anchorAt

/-- Drop a single final newline: the position where `$` matches
(end of string, or just before one trailing `'\n'`). -/
def dropFinalNewline (s : List Char) : List Char :=
  if s.getLast? == some '\n' then s.dropLast else s

/-- `re.search` with
`sd_full_info_pattern = r'.*?(?:masterpiece|score_\d|1girl|BREAK|Negative prompt:|Steps:).*?(?:Version:.*?|Module:.*?|)$'`
(DOTALL), returning `match.group(0)`.  The leading lazy `.*?` is part of
group 0, so whenever any anchor alternative occurs anywhere the match starts
at index 0; the tail `.*?(?:Version:.*?|Module:.*?|)$` always extends the
match (lazily) up to the first position where `$` matches, i.e. the end of
the string, excluding a single trailing newline.  With no anchor occurrence
there is no match. -/
def sdFullInfoMatch (s : List Char) : Option (List Char) :=
  if containsAnchor s then some (dropFinalNewline s) else none

/-- Python's `\w` on `str` patterns for the character sets appearing here:
ASCII alphanumerics and underscore; non-ASCII characters in generation
metadata (CJK text) are word characters as well and are approximated by
`127 < c.toNat`. -/
def pyIsWordChar (c : Char) : Bool :=
  c.isAlphanum || c == '_' || 127 < c.toNat

/-- Match of `sd_validation_pattern = r'Steps: \d+, Sampler: [\w\s]+'` at the
head of the list: literal `"Steps: "`, one or more digits, literal
`", Sampler: "`, then at least one word-or-space character.  Because `", "`
begins with a non-digit, only the maximal digit run can be followed by the
comma, so greedy `\d+` is the maximal `takeWhile`. -/
def validAt (s : List Char) : Bool :=
  startsWithL ("Steps: ".toList) s &&
  (let t := s.drop 7
   let ds := t.takeWhile Char.isDigit
   !ds.isEmpty && startsWithL (", Sampler: ".toList) (t.drop ds.length) &&
   (match t.drop (ds.length + 11) with
    | c :: _ => pyIsWordChar c || pyIsSpace c
    | [] => false))

/-- `sd_validation_pattern.search`: does the strict settings grammar match at
some position? -/
def validationSearch : List Char → Bool := anySuffix validAt

/-- Stage 3a, `re.search(r'(Steps:.*)', flat, re.DOTALL)`: group 1 runs from
the first `"Steps:"` to the end of the string (greedy, DOTALL).  Returns
`(other_settings, temp_sd_info)` exactly as the source computes them:
the stripped suffix and the stripped prefix, or `("", flat.strip())` when
`"Steps:"` does not occur. -/
def fieldSplitSettings (flat : List Char) : List Char × List Char :=
  match findSub ("Steps:".toList) flat with
  | some i => (pyStrip (flat.drop i), pyStrip (flat.take i))
  | none => ([], pyStrip flat)

/-- Does `$` match at offset `e` of `l` (end of string, or immediately before
one final newline)? -/
def dollarAt (l : List Char) (e : Nat) : Bool :=
  e == l.length || (e + 1 == l.length && l.getLast? == some '\n')

/-- The lookahead `(?=\s*Steps:|$)` evaluated at offset `e`: skip a whitespace
run and require the literal `"Steps:"`, or `$`.  (`"Steps:"` begins with a
non-whitespace character, so `\s*` with backtracking is the maximal
`dropWhile`.) -/
def negLookahead (l : List Char) (e : Nat) : Bool :=
  startsWithL ("Steps:".toList) ((l.drop e).dropWhile pyIsSpace) || dollarAt l e

/-- Lazy expansion of `.*?` before a lookahead: the smallest offset `e ≥ start`
at which the lookahead holds (it always holds at `l.length`). -/
def lazyMatchEnd (l : List Char) (start : Nat) : Nat :=
  match (List.range (l.length + 1 - start)).find? (fun k => negLookahead l (start + k)) with
  | some k => start + k
  | none => l.length

/-- Stage 3b, `re.search(r'(Negative prompt:.*?)(?=\s*Steps:|$)', temp, re.DOTALL)`
followed by `group(1).replace("Negative prompt:", "").strip()` and
`temp[:match.start()].strip()`.  The match starts at the first occurrence of
the label; group 1 extends lazily until the lookahead holds; `str.replace`
removes every occurrence of the label from the group.  Returns
`(negative_prompt, positive_prompt)`. -/
def fieldSplitNegative (temp : List Char) : List Char × List Char :=
  match findSub negLabel temp with
  | some j =>
    let e := lazyMatchEnd temp (j + negLabel.length)
    let grp := (temp.drop j).take (e - j)
    (pyStrip (replaceAll negLabel [] grp), pyStrip (temp.take j))
  | none => ([], pyStrip temp)

/-- `re.search(r'Model: ([^,]+)', settings)`: leftmost position where the
literal `"Model: "` is followed by at least one non-comma character; the
greedy group is the maximal run of non-comma characters there. -/
def findModelGroup : List Char → Option (List Char)
  | [] => none
  | c :: rest =>
    if startsWithL ("Model: ".toList) (c :: rest) then
      let g := ((c :: rest).drop 7).takeWhile (fun ch => ch != ',')
      if g.isEmpty then findModelGroup rest else some g
    else findModelGroup rest

/-- Model-name extraction: `match.group(1).strip()` when the pattern matches,
otherwise the `"未找到模型"` sentinel keeps its initial value. -/
def findModelName (settings : List Char) : List Char :=
  match findModelGroup settings with
  | some g => pyStrip g
  | none => modelSentinel

/- ------------------------------------------------------------------ -/
/- Core-term reducer (process_single_image, stage 4).                  -/
/- ------------------------------------------------------------------ -/

/-- `POSITIVE_PROMPT_STOP_WORDS`: the ordered stop list; raw-string entries
contain literal backslashes which `re.escape` turns back into literal
matches. -/
def POSITIVE_PROMPT_STOP_WORDS : List (List Char) :=
  [("newest, 2025, toosaka_asagi, novel_illustration, torino_aqua, izumi_tsubasu, oyuwari, pottsness, yunsang, hito_komoru, akeyama_kitsune, fi-san, rourou_\\(been\\), gweda, fuzichoco, shanguier, anmi, missile228, ").toList,
   ("2025, toosaka_asagi, novel_illustration, torino_aqua, izumi_tsubasu, oyuwari, pottsness, ").toList,
   ("looking_at_viewer, curvy,seductive_smile,glamor,makeup,blush,, lace,ribbon,jewelry,necklace,drop earrings,pendant,, sexually suggestive,").toList,
   ("sexy and cute,").toList,
   ("dynamic pose, sexy pose,").toList,
   ("dynamic angle,, dutch_angle, tinker bell \\(pixiv 10956015\\),, masterpiece, best quality, amazing quality, very awa,absurdres,newest,very aesthetic,depth of field,").toList,
   ("very awa,absurdres,newest,very aesthetic,depth of field,").toList]

/-- One loop iteration: `core = f" {core} "` then the case-insensitive
substitution of the stop word by a single space. -/
def reduceStep (core : List Char) (w : List Char) : List Char :=
  ciSubSpace w (' ' :: (core ++ [' ']))

/-- The stop-word loop, in list order. -/
def reduceLoop (stops : List (List Char)) (core : List Char) : List Char :=
  stops.foldl reduceStep core

/-- The full core-term reducer: stop-word loop, then `strip()`, then collapse
`\s+` runs, then the `"核心词为空"` sentinel when empty. -/
def coreReduce (stops : List (List Char)) (pos : List Char) : List Char :=
  let c := collapseWS (pyStrip (reduceLoop stops pos))
  if c.isEmpty then emptyCoreSentinel else c

/- ------------------------------------------------------------------ -/
/- The structured record (process_single_image, stages 2–4).           -/
/- ------------------------------------------------------------------ -/

/-- The metadata fields of the per-image record returned by
`process_single_image` (path/date fields, which depend only on the file
system, are omitted). -/
structure GenRecord where
  sdInfo : List Char
  sdInfoNoNewlines : List Char
  positivePrompt : List Char
  negativePrompt : List Char
  otherSettings : List Char
  positivePromptWordCount : Nat
  modelName : List Char
  corePositivePrompt : List Char
deriving Repr, DecidableEq

/-- The initial values of the metadata variables (kept when extraction or
validation fails). -/
def defaultFields : GenRecord :=
  { sdInfo := noInfoSentinel, sdInfoNoNewlines := noInfoSentinel,
    positivePrompt := [], negativePrompt := [], otherSettings := [],
    positivePromptWordCount := 0, modelName := modelSentinel,
    corePositivePrompt := [] }

/-- Stages 2–4 of `process_single_image` as a function of the raw metadata
string obtained from the container: clean, match the block pattern, validate,
flatten, split settings/negative/positive, count, then always reduce the core
term and search the model name. -/
def processRecord (raw : List Char) : GenRecord :=
  let base :=
    if raw.isEmpty then defaultFields
    else
      match sdFullInfoMatch (cleanedMetadata raw) with
      | some g =>
        let extracted := pyStrip g
        if validationSearch extracted then
          let flat := flattenNoNewlines extracted
          let st := fieldSplitSettings flat
          let np := fieldSplitNegative st.2
          { sdInfo := extracted, sdInfoNoNewlines := flat,
            positivePrompt := np.2, negativePrompt := np.1,
            otherSettings := st.1, positivePromptWordCount := np.2.length,
            modelName := modelSentinel, corePositivePrompt := [] }
        else defaultFields
      | none => defaultFields
  { base with
    corePositivePrompt := coreReduce POSITIVE_PROMPT_STOP_WORDS base.positivePrompt,
    modelName := findModelName base.otherSettings }

/- ------------------------------------------------------------------ -/
/- Conversion task and ledger (process_conversion_task,               -/
/- main_conversion_process).                                           -/
/- ------------------------------------------------------------------ -/

/-- The string `process_conversion_task` compares against: the flattened
metadata of the freshly written file, i.e. the `"去掉换行符的生成信息"` field
of the re-scan when the scan returns a record, and `"未扫描到信息"` when it
returns `None`.  The argument is the raw metadata string the re-scan reads
from the destination container (`none` models a `None` scan result). -/
def newFileInfoString (scan : Option (List Char)) : List Char :=
  match scan with
  | some destRaw => (processRecord destRaw).sdInfoNoNewlines
  | none => "未扫描到信息".toList

/-- One row of the conversion ledger. -/
structure ConvRow where
  srcPath : String
  srcInfo : List Char
  destPath : String
  destInfo : List Char
  consistent : List Char
  success : Bool
deriving Repr, DecidableEq

/-- `process_conversion_task`: the I/O outcome is abstracted as
`writeResult`, which is `some (newPath, destScan)` when
`convert_and_write_metadata` returns a path (and the re-scan of that file
reads raw metadata `destScan`), and `none` when it fails.  The comparison and
row construction follow the source lines byte for byte: the verdict is `"是"`
iff the flattened original is truthy (non-empty) and equal to the re-scan
string. -/
def process_conversion_task (pngPath : String) (rawMetadata : List Char)
    (writeResult : Option (String × Option (List Char))) : ConvRow :=
  match writeResult with
  | some (newPath, destScan) =>
    let newInfo := newFileInfoString destScan
    let rawFlat := flattenNoNewlines rawMetadata
    { srcPath := pngPath, srcInfo := rawFlat, destPath := newPath,
      destInfo := newInfo,
      consistent := if rawFlat ≠ [] ∧ rawFlat = newInfo then "是".toList else "否".toList,
      success := true }
  | none =>
    { srcPath := pngPath, srcInfo := flattenNoNewlines rawMetadata,
      destPath := "转换失败", destInfo := "转换失败".toList,
      consistent := "否 (转换失败)".toList, success := false }

/-- Outcome of one worker future as seen by the collection loop of
`main_conversion_process`: either `future.result()` returns the worker's row
input (the task body ran to completion, with `writeResult` as in
`process_conversion_task`), or it raises. -/
inductive TaskOutcome where
  | completed (writeResult : Option (String × Option (List Char)))
  | raised
deriving Repr, DecidableEq

/-- The result-collection loop over `as_completed`: each completed future
appends the worker's row; a future whose `result()` raises appends the
`"任务异常"` failure row for its path.  The argument list carries the futures
in completion order. -/
def collectLedger (completed : List (String × List Char × TaskOutcome)) : List ConvRow :=
  completed.map (fun t =>
    match t.2.2 with
    | TaskOutcome.completed wr => process_conversion_task t.1 t.2.1 wr
    | TaskOutcome.raised =>
      { srcPath := t.1, srcInfo := "任务异常".toList,
        destPath := "转换失败 (任务异常)", destInfo := "转换失败 (任务异常)".toList,
        consistent := "否 (任务异常)".toList, success := false })

/- ------------------------------------------------------------------ -/
/- Byte-level encoders and decoders (generate_exif_bytes,              -/
/- extract_sd_params_from_user_comment, decode_exif_bytes).            -/
/- ------------------------------------------------------------------ -/

/-- The 8-byte marker `b"UNICODE\x00"`. -/
def UNICODE_HEADER : List Nat := [0x55, 0x4E, 0x49, 0x43, 0x4F, 0x44, 0x45, 0x00]

/-- Byte-list prefix test. -/
def startsWithB : List Nat → List Nat → Bool
  | [], _ => true
  | _ :: _, [] => false
  | p :: ps, c :: cs => p == c && startsWithB ps cs

/-- UTF-16 big-endian encoding of a Unicode scalar string (Python
`str.encode('utf_16_be')`; Lean `Char` carries exactly the scalar values, on
which the encoder is total). -/
def utf16beEncode : List Char → List Nat
  | [] => []
  | c :: rest =>
    let n := c.toNat
    if n < 0x10000 then (n / 256) :: (n % 256) :: utf16beEncode rest
    else
      let m := n - 0x10000
      let hi := 0xD800 + m / 0x400
      let lo := 0xDC00 + m % 0x400
      (hi / 256) :: (hi % 256) :: (lo / 256) :: (lo % 256) :: utf16beEncode rest

/-- UTF-16 little-endian encoding (what the spec's marker convention and the
code's own comments describe). -/
def utf16leEncode : List Char → List Nat
  | [] => []
  | c :: rest =>
    let n := c.toNat
    if n < 0x10000 then (n % 256) :: (n / 256) :: utf16leEncode rest
    else
      let m := n - 0x10000
      let hi := 0xD800 + m / 0x400
      let lo := 0xDC00 + m % 0x400
      (hi % 256) :: (hi / 256) :: (lo % 256) :: (lo / 256) :: utf16leEncode rest

/-- UTF-8 encoding (Python `str.encode('utf-8', errors='ignore')`; over scalar
values nothing is dropped). -/
def utf8Encode : List Char → List Nat
  | [] => []
  | c :: rest =>
    let n := c.toNat
    if n < 0x80 then n :: utf8Encode rest
    else if n < 0x800 then (0xC0 + n / 64) :: (0x80 + n % 64) :: utf8Encode rest
    else if n < 0x10000 then
      (0xE0 + n / 4096) :: (0x80 + (n / 64) % 64) :: (0x80 + n % 64) :: utf8Encode rest
    else
      (0xF0 + n / 262144) :: (0x80 + (n / 4096) % 64) :: (0x80 + (n / 64) % 64) ::
        (0x80 + n % 64) :: utf8Encode rest

/-- Python `bytes.decode('utf-16le', errors='replace')`: two-byte
little-endian units, surrogate pairs combined, malformed units and a trailing
odd byte replaced by U+FFFD.  The fuel argument, bounded below by the number
of decoded units, keeps the recursion structural. -/
def utf16leDecodeF : Nat → List Nat → List Char
  | _, [] => []
  | 0, _ => []
  | _ + 1, [_] => ['�']
  | fuel + 1, b0 :: b1 :: rest =>
    let u := (b1 % 256) * 256 + b0 % 256
    if 0xD800 ≤ u ∧ u ≤ 0xDBFF then
      match rest with
      | b2 :: b3 :: rest2 =>
        let v := (b3 % 256) * 256 + b2 % 256
        if 0xDC00 ≤ v ∧ v ≤ 0xDFFF then
          Char.ofNat (0x10000 + (u - 0xD800) * 0x400 + (v - 0xDC00)) ::
            utf16leDecodeF fuel rest2
        else '�' :: utf16leDecodeF fuel rest
      | _ => '�' :: utf16leDecodeF fuel rest
    else if 0xDC00 ≤ u ∧ u ≤ 0xDFFF then '�' :: utf16leDecodeF fuel rest
    else Char.ofNat u :: utf16leDecodeF fuel rest

def utf16leDecode (l : List Nat) : List Char :=
  utf16leDecodeF l.length l

/-- Python `bytes.decode('utf-8', errors='replace')`: standard UTF-8 with the
usual continuation-range restrictions; malformed sequences yield U+FFFD.  The
fuel argument, bounded below by the number of decoded sequences, keeps the
recursion structural. -/
def utf8DecodeF : Nat → List Nat → List Char
  | _, [] => []
  | 0, _ => []
  | fuel + 1, b :: rest =>
    if b < 0x80 then Char.ofNat b :: utf8DecodeF fuel rest
    else if 0xC2 ≤ b ∧ b ≤ 0xDF then
      match rest with
      | b1 :: rest1 =>
        if 0x80 ≤ b1 ∧ b1 ≤ 0xBF then
          Char.ofNat ((b - 0xC0) * 64 + (b1 - 0x80)) :: utf8DecodeF fuel rest1
        else '�' :: utf8DecodeF fuel rest
      | [] => ['�']
    else if 0xE0 ≤ b ∧ b ≤ 0xEF then
      match rest with
      | b1 :: b2 :: rest2 =>
        if (if b == 0xE0 then 0xA0 ≤ b1 ∧ b1 ≤ 0xBF
            else if b == 0xED then 0x80 ≤ b1 ∧ b1 ≤ 0x9F
            else 0x80 ≤ b1 ∧ b1 ≤ 0xBF) ∧ 0x80 ≤ b2 ∧ b2 ≤ 0xBF then
          Char.ofNat ((b - 0xE0) * 4096 + (b1 - 0x80) * 64 + (b2 - 0x80)) ::
            utf8DecodeF fuel rest2
        else '�' :: utf8DecodeF fuel rest
      | _ => '�' :: utf8DecodeF fuel rest
    else if 0xF0 ≤ b ∧ b ≤ 0xF4 then
      match rest with
      | b1 :: b2 :: b3 :: rest3 =>
        if (if b == 0xF0 then 0x90 ≤ b1 ∧ b1 ≤ 0xBF
            else if b == 0xF4 then 0x80 ≤ b1 ∧ b1 ≤ 0x8F
            else 0x80 ≤ b1 ∧ b1 ≤ 0xBF) ∧ 0x80 ≤ b2 ∧ b2 ≤ 0xBF ∧ 0x80 ≤ b3 ∧ b3 ≤ 0xBF then
          Char.ofNat ((b - 0xF0) * 262144 + (b1 - 0x80) * 4096 + (b2 - 0x80) * 64 +
            (b3 - 0x80)) :: utf8DecodeF fuel rest3
        else '�' :: utf8DecodeF fuel rest
      | _ => '�' :: utf8DecodeF fuel rest
    else '�' :: utf8DecodeF fuel rest

def utf8Decode (l : List Nat) : List Char :=
  utf8DecodeF l.length l

/-- Python `bytes.decode('latin-1', errors='replace')`: every byte maps to the
scalar of the same value; total, never replaces. -/
def latin1Decode (l : List Nat) : List Char := l.map (fun b => Char.ofNat (b % 256))

/-- Structural model of Python's `'gbk'` codec with `errors='replace'`: bytes
below 0x80 decode as themselves; a lead byte 0x81–0xFE followed by a valid
trail byte (0x40–0xFE except 0x7F) decodes to one character of the GBK table,
abstracted here by an injective placeholder into plane 15 (no claim depends
on which character a double-byte pair denotes); everything else yields
U+FFFD.  The fuel argument keeps the recursion structural. -/
def gbkDecodeF : Nat → List Nat → List Char
  | _, [] => []
  | 0, _ => []
  | fuel + 1, b :: rest =>
    if b < 0x80 then Char.ofNat b :: gbkDecodeF fuel rest
    else if 0x81 ≤ b ∧ b ≤ 0xFE then
      match rest with
      | t :: rest1 =>
        if 0x40 ≤ t ∧ t ≤ 0xFE ∧ t ≠ 0x7F then
          Char.ofNat (0xF0000 + (b - 0x81) * 256 + t % 256) :: gbkDecodeF fuel rest1
        else '�' :: gbkDecodeF fuel rest
      | [] => ['�']
    else '�' :: gbkDecodeF fuel rest

def gbkDecode (l : List Nat) : List Char :=
  gbkDecodeF l.length l

/-- `piexif.helper.UserComment.dump(text, encoding="unicode")`: the 8-byte
`UNICODE\x00` prefix followed by `text.encode("utf_16_be")` — piexif's
`_UNICODE_ENCODING` is big-endian, although the caller's comments describe it
as UTF-16LE. -/
def piexifUserCommentDumpUnicode (text : List Char) : List Nat :=
  UNICODE_HEADER ++ utf16beEncode text

/-- The tag set assembled by `generate_exif_bytes` before serialisation: the
Exif-IFD UserComment value and the 0th-IFD ImageDescription value. -/
structure ExifTagSet where
  userComment : List Nat
  imageDescription : List Nat
deriving Repr, DecidableEq

/-- `generate_exif_bytes` (standard mode): UserComment from
`piexif.helper.UserComment.dump(raw, encoding="unicode")`, ImageDescription
from `raw.encode('utf-8', errors='ignore')`.  Over scalar strings neither
encode can raise, so the `except` branch (which would return `None`) is not
taken and the tag set is always produced. -/
def generate_exif_bytes (raw : List Char) : Option ExifTagSet :=
  some { userComment := piexifUserCommentDumpUnicode raw,
         imageDescription := utf8Encode raw }

/-- `extract_sd_params_from_user_comment`: strip the `UNICODE\x00` header when
present, decode the remainder as UTF-16LE with lossy replacement, and return
the raw decode together with the cleaned text (`replace('\x00', '')` then
`strip()`).  The decode uses `errors='replace'` and never raises, so the
`except` branch is dead. -/
def extract_sd_params_from_user_comment (raw : List Nat) : List Char × List Char :=
  let dataBytes := if startsWithB UNICODE_HEADER raw then raw.drop 8 else raw
  let rawDecoded := utf16leDecode dataBytes
  (rawDecoded, pyStrip (replaceAll ['\x00'] [] rawDecoded))

/-- `decode_exif_bytes`: the enumeration of decode attempts, as the ordered
label→text table the Python function builds.  With the marker present the
first entry is the marker-aware standard decode; otherwise it is the generic
UTF-16LE attempt.  The UTF-8, Latin-1 and GBK attempts always follow.  Every
attempt uses lossy replacement, so the per-attempt `except` branches are
dead and the function is total. -/
def decode_exif_bytes (raw : List Nat) : List (String × List Char) :=
  (if startsWithB UNICODE_HEADER raw then
    [("EXIF_STANDARD (UTF-16LE)", (extract_sd_params_from_user_comment raw).1)]
   else
    [("UTF-16LE (Generic)", utf16leDecode raw)]) ++
  [("UTF-8", utf8Decode raw),
   ("Latin-1", latin1Decode raw),
   ("GBK (Chinese)", gbkDecode raw)]

/- ------------------------------------------------------------------ -/
/- Spec-side definitions (written from the claims' words, for          -/
/- comparison with the code-side definitions above).                   -/
/- ------------------------------------------------------------------ -/

/-- Modelled from the claim of C3 (spec §4.2): the span starting at the first
position where an anchor keyword occurs and extending to the end of the
string. -/
def specSpanFromFirstAnchor (s : List Char) : Option (List Char) :=
  (findIdx? anchorAt s).map (fun i => s.drop i)

/- ------------------------------------------------------------------ -/
/- Basic lemmas about the string toolkit.                              -/
/- ------------------------------------------------------------------ -/

theorem startsWithL_iff (pat l : List Char) :
    startsWithL pat l = true ↔ ∃ t, l = pat ++ t := by
  induction pat generalizing l with
  | nil => simp [startsWithL]
  | cons p ps ih =>
    cases l with
    | nil => simp [startsWithL]
    | cons c cs =>
      simp only [startsWithL, Bool.and_eq_true, beq_iff_eq, ih, List.cons_append,
        List.cons.injEq]
      constructor
      · rintro ⟨rfl, t, rfl⟩; exact ⟨t, rfl, rfl⟩
      · rintro ⟨t, rfl, rfl⟩; exact ⟨rfl, t, rfl⟩

theorem startsWithL_self_append (pat t : List Char) :
    startsWithL pat (pat ++ t) = true :=
  (startsWithL_iff pat (pat ++ t)).2 ⟨t, rfl⟩

theorem startsWithL_length {pat l : List Char} (h : startsWithL pat l = true) :
    pat.length ≤ l.length := by
  obtain ⟨t, rfl⟩ := (startsWithL_iff pat l).1 h
  simp

theorem startsWithL_append_right {pat l : List Char} (w : List Char)
    (h : startsWithL pat l = true) : startsWithL pat (l ++ w) = true := by
  obtain ⟨t, rfl⟩ := (startsWithL_iff pat l).1 h
  rw [List.append_assoc]
  exact startsWithL_self_append pat (t ++ w)

theorem startsWithL_of_take {pat l : List Char} {k : Nat}
    (h : startsWithL pat (l.take k) = true) : startsWithL pat l = true := by
  obtain ⟨t, ht⟩ := (startsWithL_iff pat (l.take k)).1 h
  have : l = pat ++ (t ++ l.drop k) := by
    conv_lhs => rw [← List.take_append_drop k l]
    rw [ht, List.append_assoc]
  exact (startsWithL_iff pat l).2 ⟨t ++ l.drop k, this⟩

theorem anySuffix_iff (p : List Char → Bool) (l : List Char) :
    anySuffix p l = true ↔ ∃ i, p (l.drop i) = true := by
  induction l with
  | nil =>
    simp only [anySuffix, List.drop_nil]
    exact ⟨fun h => ⟨0, h⟩, fun ⟨_, h⟩ => h⟩
  | cons c rest ih =>
    simp only [anySuffix, Bool.or_eq_true, ih]
    constructor
    · rintro (h | ⟨i, h⟩)
      · exact ⟨0, h⟩
      · exact ⟨i + 1, h⟩
    · rintro ⟨i, h⟩
      cases i with
      | zero => exact Or.inl h
      | succ j => exact Or.inr ⟨j, h⟩

theorem findIdx?_some_sound {p : List Char → Bool} {l : List Char} {i : Nat}
    (h : findIdx? p l = some i) : p (l.drop i) = true := by
  induction l generalizing i with
  | nil =>
    simp only [findIdx?] at h
    split at h
    · cases h; simpa using ‹p [] = true›
    · cases h
  | cons c rest ih =>
    simp only [findIdx?] at h
    split at h
    · cases h; simpa using ‹_›
    · cases hf : findIdx? p rest with
      | none => rw [hf] at h; cases h
      | some j =>
        rw [hf] at h
        simp only [Option.map_some'] at h
        cases h
        simpa using ih hf

theorem findIdx?_some_min {p : List Char → Bool} {l : List Char} {i : Nat}
    (h : findIdx? p l = some i) : ∀ j, j < i → p (l.drop j) = false := by
  induction l generalizing i with
  | nil =>
    intro j hj
    simp only [findIdx?] at h
    split at h
    · cases h; omega
    · cases h
  | cons c rest ih =>
    intro j hj
    simp only [findIdx?] at h
    split at h
    · cases h; omega
    · cases hf : findIdx? p rest with
      | none => rw [hf] at h; cases h
      | some k =>
        rw [hf] at h
        simp only [Option.map_some'] at h
        cases h
        cases j with
        | zero => simpa using ‹¬ p (c :: rest) = true›
        | succ m => simpa using ih hf m (by omega)

theorem findIdx?_none {p : List Char → Bool} {l : List Char}
    (h : findIdx? p l = none) : ∀ j, p (l.drop j) = false := by
  induction l with
  | nil =>
    intro j
    simp only [findIdx?] at h
    split at h
    · cases h
    · simpa using ‹¬ p [] = true›
  | cons c rest ih =>
    intro j
    simp only [findIdx?] at h
    split at h
    · cases h
    · cases hf : findIdx? p rest with
      | none =>
        cases j with
        | zero => simpa using ‹¬ p (c :: rest) = true›
        | succ m => simpa using ih hf m
      | some k => rw [hf] at h; cases h

theorem findIdx?_isSome_of {p : List Char → Bool} {l : List Char} {j : Nat}
    (h : p (l.drop j) = true) : ∃ i, findIdx? p l = some i := by
  cases hf : findIdx? p l with
  | none => rw [findIdx?_none hf j] at h; cases h
  | some i => exact ⟨i, rfl⟩

theorem dropWhile_append_cons (p : Char → Bool) (A D : List Char) {b : Char}
    (hb : p b = false) :
    (A ++ b :: D).dropWhile p = A.dropWhile p ++ b :: D := by
  induction A with
  | nil => simp [List.dropWhile_cons, hb]
  | cons a A ih =>
    by_cases ha : p a
    · simp [List.dropWhile_cons, ha, ih]
    · simp [List.dropWhile_cons, ha]

theorem dropWhile_append_of_all (p : Char → Bool) {A : List Char} (B : List Char)
    (hA : ∀ a ∈ A, p a = true) :
    (A ++ B).dropWhile p = B.dropWhile p := by
  induction A with
  | nil => simp
  | cons a A ih =>
    have := hA a (by simp)
    simp only [List.cons_append, List.dropWhile_cons, this, if_true]
    exact ih (fun x hx => hA x (by simp [hx]))

theorem head_nonspace_of_dropWhile {p : Char → Bool} {l : List Char} {c : Char}
    {t : List Char} (h : l.dropWhile p = c :: t) : p c = false := by
  induction l with
  | nil => simp at h
  | cons a rest ih =>
    by_cases ha : p a
    · rw [List.dropWhile_cons, if_pos ha] at h; exact ih h
    · rw [List.dropWhile_cons, if_neg ha] at h
      cases h; simpa using ha

theorem dropWhile_append_of_ne_nil {p : Char → Bool} {A : List Char} {e : Char}
    {s : List Char} (h : A.dropWhile p = e :: s) (B : List Char) :
    (A ++ B).dropWhile p = e :: (s ++ B) := by
  have he : p e = false := head_nonspace_of_dropWhile h
  have hA : A = A.takeWhile p ++ e :: s := by rw [← h, List.takeWhile_append_dropWhile]
  calc (A ++ B).dropWhile p
      = (A.takeWhile p ++ e :: (s ++ B)).dropWhile p := by
        conv_lhs => rw [hA]
        simp [List.append_assoc]
    _ = (A.takeWhile p).dropWhile p ++ e :: (s ++ B) :=
        dropWhile_append_cons p _ _ he
    _ = e :: (s ++ B) := by
        rw [List.dropWhile_eq_nil_iff.2 (fun x hx => List.mem_takeWhile_imp hx)]
        simp

theorem pyStripRight_eq_nil_iff (l : List Char) :
    pyStripRight l = [] ↔ ∀ c ∈ l, pyIsSpace c = true := by
  simp only [pyStripRight, List.reverse_eq_nil_iff, List.dropWhile_eq_nil_iff,
    List.mem_reverse]

theorem pyStripRight_cons_of_ne {c : Char} {l : List Char}
    (h : pyStripRight l ≠ []) : pyStripRight (c :: l) = c :: pyStripRight l := by
  cases hd : l.reverse.dropWhile pyIsSpace with
  | nil =>
    exact absurd (by simp [pyStripRight, hd]) h
  | cons e s =>
    simp only [pyStripRight, List.reverse_cons]
    rw [dropWhile_append_of_ne_nil hd [c]]
    simp [pyStripRight, hd]

theorem pyStrip_cons_space {c : Char} (hc : pyIsSpace c = true) (l : List Char) :
    pyStrip (c :: l) = pyStrip l := by
  by_cases h : pyStripRight l = []
  · have hall : ∀ x ∈ l, pyIsSpace x = true := (pyStripRight_eq_nil_iff l).1 h
    have h2 : pyStripRight (c :: l) = [] := by
      refine (pyStripRight_eq_nil_iff _).2 ?_
      intro x hx
      rcases List.mem_cons.1 hx with rfl | hx
      · exact hc
      · exact hall x hx
    simp [pyStrip, h, h2]
  · rw [pyStrip, pyStripRight_cons_of_ne h, pyStripLeft, List.dropWhile_cons, if_pos hc]
    rfl

theorem pyStrip_append_allws {w : List Char} (hw : ∀ c ∈ w, pyIsSpace c = true)
    (l : List Char) : pyStrip (l ++ w) = pyStrip l := by
  have : pyStripRight (l ++ w) = pyStripRight l := by
    simp only [pyStripRight, List.reverse_append]
    rw [dropWhile_append_of_all pyIsSpace _ (fun a ha => hw a (List.mem_reverse.1 ha))]
  simp [pyStrip, this]

theorem pyStrip_decompRight (l : List Char) :
    ∃ w, l = pyStripRight l ++ w ∧ ∀ c ∈ w, pyIsSpace c = true := by
  refine ⟨(l.reverse.takeWhile pyIsSpace).reverse, ?_, ?_⟩
  · calc l = l.reverse.reverse := by rw [List.reverse_reverse]
    _ = (l.reverse.takeWhile pyIsSpace ++ l.reverse.dropWhile pyIsSpace).reverse := by
        rw [List.takeWhile_append_dropWhile pyIsSpace l.reverse]
    _ = pyStripRight l ++ (l.reverse.takeWhile pyIsSpace).reverse := by
        rw [List.reverse_append]; rfl
  · intro c hc
    exact List.mem_takeWhile_imp (List.mem_reverse.1 hc)

theorem pyStrip_decomp (l : List Char) :
    ∃ u w, l = u ++ pyStrip l ++ w ∧ (∀ c ∈ u, pyIsSpace c = true) ∧
      (∀ c ∈ w, pyIsSpace c = true) := by
  obtain ⟨w, hw, hws⟩ := pyStrip_decompRight l
  refine ⟨(pyStripRight l).takeWhile pyIsSpace, w, ?_,
    (fun c hc => List.mem_takeWhile_imp hc), hws⟩
  have hR : pyStripRight l = (pyStripRight l).takeWhile pyIsSpace ++ pyStrip l :=
    (List.takeWhile_append_dropWhile pyIsSpace (pyStripRight l)).symm
  calc l = pyStripRight l ++ w := hw
  _ = ((pyStripRight l).takeWhile pyIsSpace ++ pyStrip l) ++ w := by rw [← hR]
  _ = (pyStripRight l).takeWhile pyIsSpace ++ pyStrip l ++ w := by
      rw [List.append_assoc]

theorem head?_nonspace_of_dropWhile {p : Char → Bool} {l : List Char} {b : Char}
    (h : (l.dropWhile p).head? = some b) : p b = false := by
  cases hd : l.dropWhile p with
  | nil => rw [hd] at h; cases h
  | cons c t =>
    rw [hd] at h
    cases h
    exact head_nonspace_of_dropWhile hd

theorem pyStrip_head_nonspace {l : List Char} {b : Char}
    (h : (pyStrip l).head? = some b) : pyIsSpace b = false :=
  head?_nonspace_of_dropWhile h

theorem pyStripRight_last_nonspace {l : List Char} {b : Char}
    (h : (pyStripRight l).getLast? = some b) : pyIsSpace b = false := by
  rw [← List.head?_reverse] at h
  rw [pyStripRight, List.reverse_reverse] at h
  exact head?_nonspace_of_dropWhile h

theorem pyStrip_last_nonspace {l : List Char} {b : Char}
    (h : (pyStrip l).getLast? = some b) : pyIsSpace b = false := by
  have hne : pyStrip l ≠ [] := by
    intro hn; rw [hn] at h; cases h
  have : pyStripRight l = (pyStripRight l).takeWhile pyIsSpace ++ pyStrip l :=
    (List.takeWhile_append_dropWhile pyIsSpace (pyStripRight l)).symm
  have h2 : (pyStripRight l).getLast? = some b := by
    rw [this, List.getLast?_append_of_ne_nil _ hne]; exact h
  exact pyStripRight_last_nonspace h2

theorem pyStrip_eq_self {l : List Char}
    (hh : ∀ b, l.head? = some b → pyIsSpace b = false)
    (hl : ∀ b, l.getLast? = some b → pyIsSpace b = false) :
    pyStrip l = l := by
  obtain ⟨u, w, hdec, hu, hw⟩ := pyStrip_decomp l
  have hu0 : u = [] := by
    cases u with
    | nil => rfl
    | cons a us =>
      have : l.head? = some a := by rw [hdec]; rfl
      have := hh a this
      rw [hu a (by simp)] at this
      cases this
  have hw0 : w = [] := by
    cases w with
    | nil => rfl
    | cons a ws =>
      have hg : l.getLast? = (a :: ws).getLast? := by
        rw [hdec, List.getLast?_append_of_ne_nil _ (by simp)]
      obtain ⟨b, hb⟩ : ∃ b, (a :: ws).getLast? = some b := by
        cases hgg : (a :: ws).getLast? with
        | none => simp [List.getLast?_eq_none_iff] at hgg
        | some b => exact ⟨b, rfl⟩
      have hns := hl b (by rw [hg, hb])
      have hmem : b ∈ (a :: ws) := List.mem_of_mem_getLast? hb
      rw [hw b hmem] at hns
      cases hns
  rw [hu0, hw0] at hdec
  simp only [List.nil_append, List.append_nil] at hdec
  exact hdec.symm

theorem pyStrip_startsWithL {pat l : List Char} (hp : pat ≠ [])
    (hpc : ∀ c ∈ pat, pyIsSpace c = false)
    (h : startsWithL pat l = true) : startsWithL pat (pyStrip l) = true := by
  obtain ⟨t, rfl⟩ := (startsWithL_iff pat l).1 h
  obtain ⟨u, w, hdec, hu, hw⟩ := pyStrip_decomp (pat ++ t)
  have hu0 : u = [] := by
    cases u with
    | nil => rfl
    | cons a us =>
      cases pat with
      | nil => exact absurd rfl hp
      | cons pc ps =>
        have : pc = a := by
          have := congrArg List.head? hdec
          simpa using this
        subst this
        have h1 := hpc pc (by simp)
        have h2 := hu pc (by simp)
        rw [h2] at h1
        cases h1
  rw [hu0, List.nil_append] at hdec
  rcases List.append_eq_append_iff.1 hdec with ⟨x, hx, _⟩ | ⟨y, hy, hw2⟩
  · rw [hx]; exact startsWithL_self_append pat x
  · cases y with
    | nil =>
      rw [List.append_nil] at hy
      rw [← hy]
      have := startsWithL_self_append pat []
      simpa using this
    | cons c ys =>
      have h1 : c ∈ pat := by rw [hy]; simp
      have h2 : c ∈ w := by rw [hw2]; simp
      have := hpc c h1
      rw [hw c h2] at this
      cases this

theorem mem_dropWhile_of_not {p : Char → Bool} {l : List Char} {c : Char}
    (hc : c ∈ l) (hpc : p c = false) : c ∈ l.dropWhile p := by
  induction l with
  | nil => cases hc
  | cons a rest ih =>
    by_cases ha : p a
    · rw [List.dropWhile_cons, if_pos ha]
      rcases List.mem_cons.1 hc with rfl | hm
      · rw [ha] at hpc; cases hpc
      · exact ih hm
    · rw [List.dropWhile_cons, if_neg ha]
      exact hc

theorem pyStrip_ne_nil_of_mem {l : List Char} {c : Char}
    (hc : c ∈ l) (hpc : pyIsSpace c = false) : pyStrip l ≠ [] := by
  have h1 : c ∈ pyStripRight l := by
    rw [pyStripRight, List.mem_reverse]
    exact mem_dropWhile_of_not (List.mem_reverse.2 hc) hpc
  have h2 : c ∈ pyStrip l := mem_dropWhile_of_not h1 hpc
  intro hn
  rw [hn] at h2
  cases h2

/-- Occurrence of a literal substring, in decomposition form. -/
def occursIn (pat l : List Char) : Prop := ∃ pre post, l = pre ++ pat ++ post

theorem occursIn_of_startsWith_drop {pat l : List Char} {i : Nat}
    (h : startsWithL pat (l.drop i) = true) : occursIn pat l := by
  obtain ⟨t, ht⟩ := (startsWithL_iff pat (l.drop i)).1 h
  exact ⟨l.take i, t, by rw [List.append_assoc, ← ht, List.take_append_drop]⟩

theorem startsWith_drop_of_occursIn {pat l : List Char}
    (h : occursIn pat l) : ∃ i, startsWithL pat (l.drop i) = true := by
  obtain ⟨pre, post, rfl⟩ := h
  refine ⟨pre.length, ?_⟩
  rw [List.append_assoc, List.drop_left]
  exact startsWithL_self_append pat post

theorem occursIn_pyStripRight {pat l : List Char} (hp : pat ≠ [])
    (hpc : ∀ c ∈ pat, pyIsSpace c = false)
    (h : occursIn pat l) : occursIn pat (pyStripRight l) := by
  obtain ⟨pre, post, rfl⟩ := h
  obtain ⟨w, hw, hws⟩ := pyStrip_decompRight (pre ++ pat ++ post)
  rcases List.append_eq_append_iff.1 hw with ⟨x, hx, _⟩ | ⟨y, hy, hw2⟩
  · exact ⟨pre, x, hx⟩
  · cases y with
    | nil =>
      rw [List.append_nil] at hy
      exact ⟨pre, [], by rw [List.append_nil]; exact hy.symm⟩
    | cons c ys =>
      rcases List.eq_nil_or_concat pat with rfl | ⟨q, b, hq⟩
      · exact absurd rfl hp
      · have hpat_ne : pat ≠ [] := hp
        have hlast1 : (pre ++ pat).getLast? = some b := by
          rw [List.getLast?_append_of_ne_nil _ hpat_ne, hq, List.concat_eq_append,
            List.getLast?_concat]
        have hlast2 : (pre ++ pat).getLast? = (c :: ys).getLast? := by
          rw [hy, List.getLast?_append_of_ne_nil _ (by simp)]
        obtain ⟨b2, hb2⟩ : ∃ b2, (c :: ys).getLast? = some b2 := by
          cases hgg : (c :: ys).getLast? with
          | none => simp [List.getLast?_eq_none_iff] at hgg
          | some bb => exact ⟨bb, rfl⟩
        have hbb : b = b2 := by
          rw [hlast2, hb2] at hlast1; cases hlast1; rfl
        have hbpat : b ∈ pat := by rw [hq]; simp [List.concat_eq_append]
        have hbw : b ∈ w := by
          rw [hw2, hbb]
          exact List.mem_append_left _ (List.mem_of_mem_getLast? hb2)
        have h1 := hpc b hbpat
        rw [hws b hbw] at h1
        cases h1

theorem occursIn_pyStripLeft {pat l : List Char} (hp : pat ≠ [])
    (hpc : ∀ c ∈ pat, pyIsSpace c = false)
    (h : occursIn pat l) : occursIn pat (pyStripLeft l) := by
  obtain ⟨pre, post, rfl⟩ := h
  have hl : pre ++ (pat ++ post) =
      ((pre ++ pat ++ post).takeWhile pyIsSpace) ++ pyStripLeft (pre ++ pat ++ post) := by
    rw [← List.append_assoc]
    exact (List.takeWhile_append_dropWhile pyIsSpace _).symm
  rcases List.append_eq_append_iff.1 hl with ⟨x, hx, hrest⟩ | ⟨y, hy, hrest⟩
  · cases x with
    | nil =>
      rw [List.nil_append] at hrest
      exact ⟨[], post, by rw [← hrest]; simp⟩
    | cons c xs =>
      cases pat with
      | nil => exact absurd rfl hp
      | cons pc ps =>
        have hpc2 : pc = c := by
          have := congrArg List.head? hrest
          simpa using this
        have h1 := hpc pc (by simp)
        have h2 : pc ∈ (pre ++ pc :: ps ++ post).takeWhile pyIsSpace := by
          rw [hx, hpc2]; simp
        rw [List.mem_takeWhile_imp h2] at h1
        cases h1
  · exact ⟨y, post, by rw [hrest, ← List.append_assoc]⟩

theorem occursIn_pyStrip {pat l : List Char} (hp : pat ≠ [])
    (hpc : ∀ c ∈ pat, pyIsSpace c = false)
    (h : occursIn pat l) : occursIn pat (pyStrip l) :=
  occursIn_pyStripLeft hp hpc (occursIn_pyStripRight hp hpc h)

theorem findSub_some_sound {pat l : List Char} {i : Nat}
    (h : findSub pat l = some i) : startsWithL pat (l.drop i) = true :=
  findIdx?_some_sound h

theorem findSub_some_min {pat l : List Char} {i : Nat}
    (h : findSub pat l = some i) : ∀ j, j < i → startsWithL pat (l.drop j) = false :=
  findIdx?_some_min h

theorem findSub_isSome_of_occurs {pat l : List Char}
    (h : occursIn pat l) : ∃ i, findSub pat l = some i := by
  obtain ⟨j, hj⟩ := startsWith_drop_of_occursIn h
  exact findIdx?_isSome_of hj

theorem findSub_none_no_occurs {pat l : List Char}
    (h : findSub pat l = none) : ¬ occursIn pat l := by
  intro hocc
  obtain ⟨j, hj⟩ := startsWith_drop_of_occursIn hocc
  rw [findIdx?_none h j] at hj
  cases hj

theorem replaceAllF_single (a b : Char) :
    ∀ (fuel : Nat) (l : List Char), l.length ≤ fuel →
      replaceAllF [a] [b] fuel l = l.map (fun c => if c == a then b else c) := by
  intro fuel
  induction fuel with
  | zero =>
    intro l hl
    cases l with
    | nil => rfl
    | cons c rest => simp at hl
  | succ f ih =>
    intro l hl
    cases l with
    | nil => rfl
    | cons c rest =>
      rw [replaceAllF]
      by_cases hca : a = c
      · subst hca
        have hcond : 0 < ([a] : List Char).length ∧ startsWithL [a] (a :: rest) = true := by
          refine ⟨by simp, ?_⟩
          simp [startsWithL]
        rw [if_pos hcond]
        have h1 : ([a] : List Char).length - 1 = 0 := rfl
        rw [h1, List.drop_zero, List.map_cons]
        have hr : rest.length ≤ f := by
          simp only [List.length_cons] at hl
          omega
        rw [ih rest hr]
        simp
      · have hcond : ¬(0 < ([a] : List Char).length ∧ startsWithL [a] (c :: rest) = true) := by
          rintro ⟨-, hs⟩
          simp [startsWithL] at hs
          exact hca hs
        rw [if_neg hcond]
        simp only [List.length_cons] at hl
        rw [List.map_cons, ih rest (by omega)]
        have : (c == a) = false := by
          simp only [beq_eq_false_iff_ne, ne_eq]
          exact fun hh => hca hh.symm
        rw [this]
        simp

theorem replaceAll_single (a b : Char) (l : List Char) :
    replaceAll [a] [b] l = l.map (fun c => if c == a then b else c) :=
  replaceAllF_single a b l.length l (Nat.le_refl _)

/-- The character map performed by `replace('\n',' ').replace('\r',' ')`. -/
def flattenChar (c : Char) : Char :=
  if c == '\n' then ' ' else if c == '\r' then ' ' else c

theorem flattenNoNewlines_eq_map (s : List Char) :
    flattenNoNewlines s = pyStrip (s.map flattenChar) := by
  rw [flattenNoNewlines, replaceAll_single, replaceAll_single, List.map_map]
  congr 1
  apply List.map_congr_left
  intro c _
  simp only [Function.comp_apply, flattenChar]
  by_cases h1 : c = '\n'
  · subst h1; simp
  · by_cases h2 : c = '\r'
    · subst h2; simp
    · have b1 : (c == '\n') = false := by simpa using h1
      have b2 : (c == '\r') = false := by simpa using h2
      rw [b1, b2]
      simp [b1, b2]

theorem validAt_head {s : List Char} (h : validAt s = true) :
    startsWithL (("Steps: ").toList) s = true := by
  rw [validAt, Bool.and_eq_true] at h
  exact h.1

theorem validationSearch_occurs {s : List Char} (h : validationSearch s = true) :
    occursIn (("Steps:").toList) s := by
  obtain ⟨i, hi⟩ := (anySuffix_iff validAt s).1 h
  have h1 := validAt_head hi
  obtain ⟨t, ht⟩ := (startsWithL_iff _ _).1 h1
  have hsp : ("Steps: ").toList = ("Steps:").toList ++ [' '] := by decide
  have h2 : startsWithL (("Steps:").toList) (s.drop i) = true := by
    rw [ht, hsp, List.append_assoc]
    exact startsWithL_self_append _ _
  exact occursIn_of_startsWith_drop h2

theorem flatten_occurs_of_valid {s : List Char} (h : validationSearch s = true) :
    occursIn (("Steps:").toList) (flattenNoNewlines s) := by
  obtain ⟨pre, post, hdec⟩ := validationSearch_occurs h
  rw [flattenNoNewlines_eq_map]
  apply occursIn_pyStrip (by decide) (by decide)
  refine ⟨pre.map flattenChar, post.map flattenChar, ?_⟩
  rw [hdec]
  simp only [List.map_append]
  have : (("Steps:").toList).map flattenChar = ("Steps:").toList := by decide
  rw [this]

theorem occursIn_ne_nil {pat l : List Char} (hp : pat ≠ []) (h : occursIn pat l) :
    l ≠ [] := by
  obtain ⟨pre, post, rfl⟩ := h
  cases pat with
  | nil => exact absurd rfl hp
  | cons c t => simp

theorem flattenNoNewlines_ne_nil_of_valid {s : List Char}
    (h : validationSearch s = true) : flattenNoNewlines s ≠ [] :=
  occursIn_ne_nil (by decide) (flatten_occurs_of_valid h)

theorem processRecord_flat_ne_nil (raw : List Char) :
    (processRecord raw).sdInfoNoNewlines ≠ [] := by
  rw [processRecord]
  simp only
  split
  · decide
  · split
    · rename_i g heq
      split
      · rename_i hval
        simp only
        exact flattenNoNewlines_ne_nil_of_valid hval
      · decide
    · decide

theorem newFileInfoString_ne_nil (scan : Option (List Char)) :
    newFileInfoString scan ≠ [] := by
  cases scan with
  | none => decide
  | some d => exact processRecord_flat_ne_nil d

/-- C1: for every conversion task whose destination file is written
successfully, the consistency verdict is exactly string equality between the
flattened original metadata and the re-extracted flattened metadata of the
destination file — substring containment plays no role, and the non-emptiness
guard in the source cannot fire on the equal side because the re-extracted
string is never empty (it is either a validated block containing `"Steps:"`
or a sentinel). -/
theorem C1_consistency_is_exact_equality (pngPath newPath : String)
    (rawMetadata : List Char) (destScan : Option (List Char)) :
    (process_conversion_task pngPath rawMetadata (some (newPath, destScan))).consistent =
      (if flattenNoNewlines rawMetadata = newFileInfoString destScan
       then ("是").toList else ("否").toList) := by
  rw [process_conversion_task]
  simp only
  by_cases h : flattenNoNewlines rawMetadata = newFileInfoString destScan
  · rw [if_pos h, if_pos]
    refine ⟨?_, h⟩
    rw [h]
    exact newFileInfoString_ne_nil destScan
  · rw [if_neg h, if_neg]
    rintro ⟨-, h2⟩
    exact h h2

/-- C10: a conversion row can be marked consistent only when the flattened
original metadata is non-empty; when it flattens to the empty string the row
is marked `"否"` no matter what was re-extracted from the destination file,
even if that text is equal. -/
theorem C10_empty_original_never_consistent (pngPath newPath : String)
    (rawMetadata : List Char) (destScan : Option (List Char))
    (h : flattenNoNewlines rawMetadata = []) :
    (process_conversion_task pngPath rawMetadata (some (newPath, destScan))).consistent =
      ("否").toList ∧
    ∀ (p np : String) (raw : List Char) (scan : Option (List Char)),
      (process_conversion_task p raw (some (np, scan))).consistent = ("是").toList →
        flattenNoNewlines raw ≠ [] := by
  constructor
  · rw [process_conversion_task]
    simp only
    rw [if_neg]
    rintro ⟨h1, -⟩
    exact h1 h
  · intro p np raw scan hc
    rw [process_conversion_task] at hc
    simp only at hc
    intro hn
    rw [if_neg] at hc
    · exact absurd hc (by decide)
    · rintro ⟨h1, -⟩
      exact h1 hn

/-- C10 witness: with empty original metadata and a destination scan that also
yields no information, the row is still marked `"否"`. -/
theorem C10_witness :
    flattenNoNewlines [] = [] ∧
    (process_conversion_task ("a.png") [] (some (("a.jpg"), none))).consistent =
      ("否").toList := by
  refine ⟨by decide, ?_⟩
  exact (C10_empty_original_never_consistent ("a.png") ("a.jpg") [] none (by decide)).1

theorem settings_startsWith_of_occurs {flat : List Char}
    (h : occursIn (("Steps:").toList) flat) :
    startsWithL (("Steps:").toList) (fieldSplitSettings flat).1 = true := by
  obtain ⟨i, hi⟩ := findSub_isSome_of_occurs h
  rw [fieldSplitSettings, hi]
  exact pyStrip_startsWithL (by decide) (by decide) (findSub_some_sound hi)

/-- C2: the generation record is all-or-nothing.  Either extraction or strict
validation failed — then the raw and flattened block both hold the
`"没有扫描到生成信息"` sentinel and the prompt/settings fields are all empty with a
zero character count — or the extracted block passed the strict
`Steps/Sampler` validation and the flattened block, character count and
settings suffix (which then starts with `"Steps:"`) are all populated from
it.  A record mixing the two shapes is never produced. -/
theorem C2_all_or_nothing_population (raw : List Char) :
    ((processRecord raw).sdInfo = noInfoSentinel ∧
     (processRecord raw).sdInfoNoNewlines = noInfoSentinel ∧
     (processRecord raw).positivePrompt = [] ∧
     (processRecord raw).negativePrompt = [] ∧
     (processRecord raw).otherSettings = [] ∧
     (processRecord raw).positivePromptWordCount = 0) ∨
    (validationSearch (processRecord raw).sdInfo = true ∧
     (processRecord raw).sdInfoNoNewlines = flattenNoNewlines (processRecord raw).sdInfo ∧
     (processRecord raw).positivePromptWordCount = (processRecord raw).positivePrompt.length ∧
     startsWithL (("Steps:").toList) (processRecord raw).otherSettings = true) := by
  rw [processRecord]
  simp only
  split
  · exact Or.inl ⟨rfl, rfl, rfl, rfl, rfl, rfl⟩
  · split
    · rename_i g heq
      split
      · rename_i hval
        refine Or.inr ⟨hval, rfl, rfl, ?_⟩
        exact settings_startsWith_of_occurs (flatten_occurs_of_valid hval)
      · exact Or.inl ⟨rfl, rfl, rfl, rfl, rfl, rfl⟩
    · exact Or.inl ⟨rfl, rfl, rfl, rfl, rfl, rfl⟩

theorem pyStrip_dropFinalNewline (s : List Char) :
    pyStrip (dropFinalNewline s) = pyStrip s := by
  rw [dropFinalNewline]
  split
  · rename_i h
    simp only [beq_iff_eq] at h
    have hne : s ≠ [] := by
      intro hnil
      rw [hnil] at h
      cases h
    have hs : s = s.dropLast ++ ['\n'] := by
      conv_lhs => rw [← List.dropLast_append_getLast hne]
      have : s.getLast hne = '\n' := by
        have := List.getLast?_eq_getLast s hne
        rw [h] at this
        exact (Option.some_injective _ this).symm
      rw [this]
    conv_rhs => rw [hs]
    rw [pyStrip_append_allws (by intro c hc; simp at hc; rw [hc]; decide)]
  · rfl

/-- C3 (counterexample): on the input `"hello Steps: 1, Sampler: a"` the claim
says the extracted block is the span from the first anchor keyword
(`"Steps: 1, Sampler: a"`), but the code's block is the whole string — the
leading lazy wildcard of `sd_full_info_pattern` is inside `group(0)`, so the
text before the first anchor is kept. -/
theorem C3_counterexample :
    specSpanFromFirstAnchor (cleanedMetadata (("hello Steps: 1, Sampler: a").toList)) =
      some (("Steps: 1, Sampler: a").toList) ∧
    (processRecord (("hello Steps: 1, Sampler: a").toList)).sdInfo =
      ("hello Steps: 1, Sampler: a").toList ∧
    (processRecord (("hello Steps: 1, Sampler: a").toList)).sdInfo ≠
      ("Steps: 1, Sampler: a").toList := by
  refine ⟨by decide, by decide, by decide⟩

/-- C3 (amended): whenever an anchor keyword occurs anywhere in the
preprocessed text (and the block passes validation so that it is kept), the
extracted metadata block is the whole preprocessed text, stripped — the match
of `sd_full_info_pattern` starts at index 0 because the leading lazy `.*?` is
part of the match, so text preceding the first anchor keyword is included;
the anchor's presence anywhere only gates whether extraction succeeds. -/
theorem C3_amended_block_is_whole_text (raw : List Char)
    (h1 : containsAnchor (cleanedMetadata raw) = true)
    (h2 : validationSearch (pyStrip (cleanedMetadata raw)) = true) :
    (processRecord raw).sdInfo = pyStrip (cleanedMetadata raw) := by
  have hraw : raw.isEmpty = false := by
    cases raw with
    | nil =>
      have : cleanedMetadata [] = [] := by decide
      rw [this] at h1
      cases h1
    | cons c rest => rfl
  rw [processRecord]
  simp only
  rw [hraw]
  simp only [Bool.false_eq_true, if_false]
  have hmatch : sdFullInfoMatch (cleanedMetadata raw) =
      some (dropFinalNewline (cleanedMetadata raw)) := by
    rw [sdFullInfoMatch, if_pos h1]
  rw [hmatch]
  simp only
  rw [pyStrip_dropFinalNewline]
  rw [if_pos h2]

/-- C3 amended witness at a concrete input: the anchor occurs, validation
passes, and the block is the whole (already clean) text. -/
theorem C3_amended_witness :
    containsAnchor (cleanedMetadata (("hello Steps: 1, Sampler: a").toList)) = true ∧
    validationSearch (pyStrip (cleanedMetadata (("hello Steps: 1, Sampler: a").toList))) = true ∧
    (processRecord (("hello Steps: 1, Sampler: a").toList)).sdInfo =
      pyStrip (cleanedMetadata (("hello Steps: 1, Sampler: a").toList)) :=
  ⟨by decide, by decide,
    C3_amended_block_is_whole_text (("hello Steps: 1, Sampler: a").toList)
      (by decide) (by decide)⟩

/-- C5: the round trip announced by the spec fails on the code.  The encoder's
standard mode (`piexif.helper.UserComment.dump(..., encoding="unicode")`)
emits UTF-16 big-endian code units after the `UNICODE\x00` marker, while the
debugger's marker-aware path decodes UTF-16 little-endian, so encoding
`"Steps: 10, Sampler: DDIM"` and decoding it back yields byte-swapped CJK
characters instead of the original string — although the encoder's own
comments document the payload as UTF-16LE. -/
theorem C5_roundtrip_garbles :
    (extract_sd_params_from_user_comment
        (piexifUserCommentDumpUnicode (("Steps: 10, Sampler: DDIM").toList))).2 ≠
      ("Steps: 10, Sampler: DDIM").toList ∧
    (extract_sd_params_from_user_comment
        (piexifUserCommentDumpUnicode (("AB").toList))).2 =
      [Char.ofNat 0x4100, Char.ofNat 0x4200] := by
  exact ⟨by decide, by decide⟩

/-- C6: the decoder cascade is a total function from bytes to a non-empty
candidate table: for every input it returns exactly four candidates — the
marker-aware standard decode when the `UNICODE\x00` marker is present,
otherwise the generic UTF-16LE attempt, always followed by the UTF-8, Latin-1
and GBK attempts, each by lossy substitution — and on empty input every
candidate is the empty string. -/
theorem C6_decoder_cascade_total (raw : List Nat) :
    (decode_exif_bytes raw).map Prod.fst =
      (if startsWithB UNICODE_HEADER raw then
        ["EXIF_STANDARD (UTF-16LE)", "UTF-8", "Latin-1", "GBK (Chinese)"]
       else ["UTF-16LE (Generic)", "UTF-8", "Latin-1", "GBK (Chinese)"]) ∧
    (decode_exif_bytes raw).length = 4 ∧
    decode_exif_bytes [] =
      [("UTF-16LE (Generic)", []), ("UTF-8", []), ("Latin-1", []), ("GBK (Chinese)", [])] := by
  refine ⟨?_, ?_, by decide⟩
  · rw [decode_exif_bytes]
    split
    · rfl
    · rfl
  · rw [decode_exif_bytes]
    split
    · rfl
    · rfl

/-- C8 (counterexample): on input `"A"` the encoder produces the marker
followed by the UTF-16 big-endian unit `[0x00, 0x41]`, which differs from the
marker followed by the UTF-16LE code units `[0x41, 0x00]` stated by the
claim. -/
theorem C8_counterexample :
    generate_exif_bytes (("A").toList) =
      some { userComment := UNICODE_HEADER ++ [0x00, 0x41],
             imageDescription := [0x41] } ∧
    UNICODE_HEADER ++ [0x00, 0x41] ≠
      UNICODE_HEADER ++ utf16leEncode (("A").toList) := by
  exact ⟨by decide, by decide⟩

theorem startsWithB_self_append (pat t : List Nat) :
    startsWithB pat (pat ++ t) = true := by
  induction pat with
  | nil => rfl
  | cons p ps ih => simp [startsWithB, ih]

/-- C8 (amended): for every metadata string the encoder produces a tag set —
never raising and never reaching the `None` branch — whose UserComment slot
is the 8-byte `UNICODE\x00` marker followed by the UTF-16 big-endian code
units of the text (piexif's "unicode" encoding), and whose ImageDescription
slot is the raw UTF-8 bytes of the text. -/
theorem C8_amended_encoder_tagset (raw : List Char) :
    ∃ ts, generate_exif_bytes raw = some ts ∧
      ts.userComment = UNICODE_HEADER ++ utf16beEncode raw ∧
      ts.imageDescription = utf8Encode raw ∧
      startsWithB UNICODE_HEADER ts.userComment = true := by
  refine ⟨_, rfl, rfl, rfl, ?_⟩
  exact startsWithB_self_append UNICODE_HEADER (utf16beEncode raw)

theorem collectLedger_map_srcPath (completed : List (String × List Char × TaskOutcome)) :
    (collectLedger completed).map ConvRow.srcPath = completed.map (fun t => t.1) := by
  rw [collectLedger, List.map_map]
  apply List.map_congr_left
  rintro ⟨p, raw, o⟩ -
  cases o with
  | completed wr =>
    cases wr with
    | none => rfl
    | some pr => rfl
  | raised => rfl

/-- C9: one ledger row per discovered file, in any completion order.  If the
completed futures are a permutation of the submitted tasks, the ledger's
source paths are a permutation of the submitted paths (so the sets coincide
and no file is dropped or duplicated), the ledger has exactly one row per
future, and a future whose `result()` raised contributes a failure row
(`success = false`) for its own path without affecting any other row. -/
theorem C9_one_result_per_file
    (submitted completed : List (String × List Char × TaskOutcome))
    (h : completed.Perm submitted) :
    ((collectLedger completed).map ConvRow.srcPath).Perm
      (submitted.map (fun t => t.1)) ∧
    (collectLedger completed).length = completed.length ∧
    ∀ p raw, (p, raw, TaskOutcome.raised) ∈ completed →
      ∃ row, row ∈ collectLedger completed ∧ row.srcPath = p ∧ row.success = false := by
  refine ⟨?_, ?_, ?_⟩
  · rw [collectLedger_map_srcPath]
    exact h.map (fun t => t.1)
  · rw [collectLedger]
    exact List.length_map _ _
  · intro p raw hmem
    refine ⟨ConvRow.mk p (("任务异常").toList) ("转换失败 (任务异常)")
      (("转换失败 (任务异常)").toList) (("否 (任务异常)").toList) false, ?_, rfl, rfl⟩
    rw [collectLedger]
    exact List.mem_map_of_mem _ hmem

/-- C9 witness: a single task whose future raises yields exactly one ledger
row, carrying its path with `success = false`. -/
theorem C9_witness :
    (([(("t.png" : String), ([] : List Char), TaskOutcome.raised)]).Perm
      [(("t.png" : String), ([] : List Char), TaskOutcome.raised)]) ∧
    ((collectLedger [(("t.png" : String), ([] : List Char), TaskOutcome.raised)]).map
        ConvRow.srcPath).Perm
      ([(("t.png" : String), ([] : List Char), TaskOutcome.raised)].map (fun t => t.1)) ∧
    (collectLedger [(("t.png" : String), ([] : List Char), TaskOutcome.raised)]).length = 1 ∧
    ∃ row, row ∈ collectLedger [(("t.png" : String), ([] : List Char), TaskOutcome.raised)] ∧
      row.srcPath = ("t.png" : String) ∧ row.success = false := by
  have h := C9_one_result_per_file
    [(("t.png" : String), ([] : List Char), TaskOutcome.raised)]
    [(("t.png" : String), ([] : List Char), TaskOutcome.raised)]
    (List.Perm.refl _)
  exact ⟨List.Perm.refl _, h.1, h.2.1, h.2.2 ("t.png") [] (by simp)⟩

theorem collapseWS_single (c : Char) :
    collapseWS [c] = if pyIsSpace c then [' '] else [c] := rfl

theorem collapseWS_cons2 (c d : Char) (rest : List Char) :
    collapseWS (c :: d :: rest) =
      if pyIsSpace c && pyIsSpace d then collapseWS (d :: rest)
      else (if pyIsSpace c then ' ' else c) :: collapseWS (d :: rest) := rfl

theorem collapseWS_cons_of_nonspace {c : Char} (hc : pyIsSpace c = false)
    (t : List Char) : collapseWS (c :: t) = c :: collapseWS t := by
  cases t with
  | nil =>
    rw [collapseWS_single, hc]
    rfl
  | cons d rest => simp [collapseWS_cons2, hc]

theorem collapseWS_cons2_of_space {c d : Char} (hc : pyIsSpace c = true)
    (hd : pyIsSpace d = false) (rest : List Char) :
    collapseWS (c :: d :: rest) = ' ' :: collapseWS (d :: rest) := by
  rw [collapseWS_cons2, hc, hd]
  simp

theorem collapseWS_idem (l : List Char) : collapseWS (collapseWS l) = collapseWS l := by
  induction l with
  | nil => rfl
  | cons c t ih =>
    by_cases hc : pyIsSpace c
    · cases t with
      | nil =>
        simp [collapseWS_single, hc]
      | cons d rest =>
        by_cases hd : pyIsSpace d
        · rw [collapseWS_cons2, hc, hd]
          simpa using ih
        · have hd' : pyIsSpace d = false := by simpa using hd
          rw [collapseWS_cons2_of_space hc hd']
          have h2 : collapseWS (d :: rest) = d :: collapseWS rest :=
            collapseWS_cons_of_nonspace hd' rest
          rw [h2, collapseWS_cons2_of_space (by decide) hd', ← h2, ih, h2]
    · have hc' : pyIsSpace c = false := by simpa using hc
      rw [collapseWS_cons_of_nonspace hc', collapseWS_cons_of_nonspace hc', ih]

theorem collapseWS_concat_nonspace {b : Char} (hb : pyIsSpace b = false) :
    ∀ l : List Char, ∃ u, collapseWS (l ++ [b]) = u ++ [b] := by
  intro l
  induction l with
  | nil => exact ⟨[], by simp [collapseWS_single, hb]⟩
  | cons c l' ih =>
    by_cases hc : pyIsSpace c
    · cases l' with
      | nil =>
        refine ⟨[' '], ?_⟩
        show collapseWS (c :: [b]) = ' ' :: [b]
        rw [collapseWS_cons2, collapseWS_single, hc, hb]
        rfl
      | cons d l'' =>
        by_cases hd : pyIsSpace d
        · obtain ⟨u, hu⟩ := ih
          refine ⟨u, ?_⟩
          rw [List.cons_append, List.cons_append, collapseWS_cons2, hc, hd]
          simp only [List.cons_append] at hu
          simpa using hu
        · have hd' : pyIsSpace d = false := by simpa using hd
          obtain ⟨u, hu⟩ := ih
          refine ⟨' ' :: u, ?_⟩
          rw [List.cons_append, List.cons_append, collapseWS_cons2_of_space hc hd']
          simp only [List.cons_append] at hu
          rw [hu]
          rfl
    · obtain ⟨u, hu⟩ := ih
      have hc' : pyIsSpace c = false := by simpa using hc
      refine ⟨c :: u, ?_⟩
      rw [List.cons_append, collapseWS_cons_of_nonspace hc', hu]
      rfl

theorem pyStrip_idem (l : List Char) : pyStrip (pyStrip l) = pyStrip l :=
  pyStrip_eq_self (fun _ hb => pyStrip_head_nonspace hb)
    (fun _ hb => pyStrip_last_nonspace hb)

theorem coreReduce_fixed (stops : List (List Char)) (s : List Char) :
    pyStrip (coreReduce stops s) = coreReduce stops s ∧
    collapseWS (coreReduce stops s) = coreReduce stops s ∧
    coreReduce stops s ≠ [] := by
  rw [coreReduce]
  split
  · exact ⟨by decide, by decide, by decide⟩
  · rename_i hne
    have hynil : pyStrip (reduceLoop stops s) ≠ [] := by
      intro h0
      rw [h0] at hne
      exact hne rfl
    refine ⟨?_, collapseWS_idem _, hne ∘ List.isEmpty_iff.2⟩
    apply pyStrip_eq_self
    · intro b hb
      cases hyy : pyStrip (reduceLoop stops s) with
      | nil => exact absurd hyy hynil
      | cons a t =>
        have ha : pyIsSpace a = false :=
          pyStrip_head_nonspace (by rw [hyy]; rfl)
        rw [hyy, collapseWS_cons_of_nonspace ha] at hb
        cases hb
        exact ha
    · intro b hb
      obtain ⟨bl, hbl⟩ : ∃ bl, (pyStrip (reduceLoop stops s)).getLast? = some bl := by
        cases hgg : (pyStrip (reduceLoop stops s)).getLast? with
        | none => exact absurd (List.getLast?_eq_none_iff.1 hgg) hynil
        | some bb => exact ⟨bb, rfl⟩
      have hblns : pyIsSpace bl = false := pyStrip_last_nonspace hbl
      have hydec : pyStrip (reduceLoop stops s) =
          (pyStrip (reduceLoop stops s)).dropLast ++ [bl] := by
        conv_lhs => rw [← List.dropLast_append_getLast hynil]
        have := List.getLast?_eq_getLast (pyStrip (reduceLoop stops s)) hynil
        rw [hbl] at this
        rw [← Option.some_injective _ this]
      obtain ⟨u, hu⟩ := collapseWS_concat_nonspace hblns (pyStrip (reduceLoop stops s)).dropLast
      rw [hydec, hu, List.getLast?_concat] at hb
      cases hb
      exact hblns

/-- The padding the loop body applies before each substitution
(`core = f" {core} "`). -/
def padOnce (l : List Char) : List Char := ' ' :: (l ++ [' '])

/-- The padding accumulated by a loop run in which no substitution changes the
text: one leading and one trailing space per stop word. -/
def padLoop : Nat → List Char → List Char
  | 0, l => l
  | n + 1, l => padLoop n (padOnce l)

theorem pyStrip_padOnce (l : List Char) : pyStrip (padOnce l) = pyStrip l := by
  rw [padOnce, pyStrip_cons_space (by decide)]
  exact pyStrip_append_allws (by intro c hc; simp at hc; rw [hc]; decide) l

theorem pyStrip_padLoop (n : Nat) : ∀ l, pyStrip (padLoop n l) = pyStrip l := by
  induction n with
  | zero => intro l; rfl
  | succ m ih =>
    intro l
    rw [padLoop, ih, pyStrip_padOnce]

/-- C7 (counterexample): the Core-Term Reducer is not idempotent.  With the
stop-list `["a b"]` and input `"a  b"` (two inner spaces) the first
application removes nothing but collapses the whitespace to `"a b"`; the
second application then finds and removes the fragment, leaving the
`"核心词为空"` sentinel — so applying the reducer twice differs from applying it
once. -/
theorem C7_counterexample :
    coreReduce [("a b").toList] (coreReduce [("a b").toList] (("a  b").toList)) ≠
      coreReduce [("a b").toList] (("a  b").toList) ∧
    coreReduce [("a b").toList] (("a  b").toList) = ("a b").toList ∧
    coreReduce [("a b").toList] (("a b").toList) = emptyCoreSentinel := by
  exact ⟨by decide, by decide, by decide⟩

/-- C7 (amended): the reducer is idempotent exactly on the inputs where the
second pass's substitution loop removes nothing, i.e. where running the loop
on the once-reduced text only accumulates the padding spaces.  Under that
hypothesis the second application returns the first result unchanged, because
the reducer's output is already stripped, whitespace-collapsed and non-empty.
In general the final whitespace collapse of the first application can create
new fragment occurrences, so a second application can differ. -/
theorem C7_amended_conditional_idempotence (stops : List (List Char)) (s : List Char)
    (h : reduceLoop stops (coreReduce stops s) =
      padLoop stops.length (coreReduce stops s)) :
    coreReduce stops (coreReduce stops s) = coreReduce stops s := by
  obtain ⟨hstrip, hcoll, hne⟩ := coreReduce_fixed stops s
  rw [coreReduce, h, pyStrip_padLoop, hstrip, hcoll]
  split
  · rename_i hemp
    exact absurd (List.isEmpty_iff.1 hemp) hne
  · rfl

/-- C7 amended witness: with the real stop word `"sexy and cute,"` the
once-reduced text `"1girl"` admits no further substitution, so the second
application is the identity. -/
theorem C7_amended_witness :
    reduceLoop [("sexy and cute,").toList]
        (coreReduce [("sexy and cute,").toList] (("sexy and cute, 1girl").toList)) =
      padLoop 1 (coreReduce [("sexy and cute,").toList] (("sexy and cute, 1girl").toList)) ∧
    coreReduce [("sexy and cute,").toList]
        (coreReduce [("sexy and cute,").toList] (("sexy and cute, 1girl").toList)) =
      coreReduce [("sexy and cute,").toList] (("sexy and cute, 1girl").toList) :=
  ⟨by decide,
    C7_amended_conditional_idempotence [("sexy and cute,").toList]
      (("sexy and cute, 1girl").toList) (by decide)⟩

theorem startsWithL_ne_nil {pat x : List Char} (hp : pat ≠ [])
    (h : startsWithL pat x = true) : x ≠ [] := by
  cases pat with
  | nil => exact absurd rfl hp
  | cons p ps =>
    cases x with
    | nil => cases h
    | cons c cs => simp

theorem pyStrip_drop_fixed {flat : List Char} {i : Nat}
    (hs : pyStrip flat = flat)
    (hst : startsWithL (("Steps:").toList) (flat.drop i) = true) :
    pyStrip (flat.drop i) = flat.drop i := by
  have hne : flat.drop i ≠ [] := startsWithL_ne_nil (by decide) hst
  apply pyStrip_eq_self
  · intro b hb
    obtain ⟨t, ht⟩ := (startsWithL_iff _ _).1 hst
    rw [ht] at hb
    cases hb
    decide
  · intro b hb
    have hg : flat.getLast? = some b := by
      conv_lhs => rw [← List.take_append_drop i flat]
      rw [List.getLast?_append_of_ne_nil _ hne]
      exact hb
    apply pyStrip_last_nonspace
    rw [hs]
    exact hg

theorem drop_append_both (A B : List Char) (q : Nat) :
    (A ++ B).drop (A.length + q) = B.drop q := by
  rw [List.drop_append_eq_append_drop]
  have h1 : A.drop (A.length + q) = [] := by
    apply List.drop_eq_nil_of_le
    omega
  rw [h1, List.nil_append]
  congr 1
  omega

theorem no_occurs_before_first {pat flat : List Char} {i : Nat} (hp : pat ≠ [])
    (hfind : findSub pat flat = some i) :
    ∀ q, startsWithL pat ((pyStrip (flat.take i)).drop q) = false := by
  intro q
  by_contra hq
  have hq' : startsWithL pat ((pyStrip (flat.take i)).drop q) = true := by
    cases hqq : startsWithL pat ((pyStrip (flat.take i)).drop q) with
    | false => exact absurd hqq hq
    | true => rfl
  obtain ⟨u, w, hdec, hu, hw⟩ := pyStrip_decomp (flat.take i)
  have hlen : q < (pyStrip (flat.take i)).length := by
    have h1 := startsWithL_ne_nil hp hq'
    have h2 : q < (pyStrip (flat.take i)).length ∨
        (pyStrip (flat.take i)).length ≤ q := by omega
    rcases h2 with h2 | h2
    · exact h2
    · exact absurd (List.drop_eq_nil_of_le h2) h1
  have hdrop : (flat.take i).drop ((u.length + q)) =
      (pyStrip (flat.take i)).drop q ++ w := by
    conv_lhs => rw [hdec]
    rw [List.append_assoc, drop_append_both u (pyStrip (flat.take i) ++ w) q]
    rw [List.drop_append_eq_append_drop]
    have h0 : q - (pyStrip (flat.take i)).length = 0 := by omega
    rw [h0, List.drop_zero]
  have h3 : startsWithL pat ((flat.take i).drop (u.length + q)) = true := by
    rw [hdrop]
    exact startsWithL_append_right w hq'
  have h4 : startsWithL pat (flat.drop (u.length + q)) = true := by
    rw [List.drop_take] at h3
    exact startsWithL_of_take h3
  have h5 : u.length + q < i := by
    have hlen2 := startsWithL_length h3
    have hlen3 : ((flat.take i).drop (u.length + q)).length =
        (flat.take i).length - (u.length + q) := by
      rw [List.length_drop]
    have hlen4 : (flat.take i).length ≤ i := by
      rw [List.length_take]
      omega
    have hpat : 0 < pat.length := by
      cases pat with
      | nil => exact absurd rfl hp
      | cons c t => simp
    omega
  rw [findSub_some_min hfind (u.length + q) h5] at h4
  cases h4

theorem dropWhile_eq_drop (p : Char → Bool) (l : List Char) :
    l.dropWhile p = l.drop (l.takeWhile p).length := by
  have h := List.takeWhile_append_dropWhile p l
  calc l.dropWhile p
      = (l.takeWhile p ++ l.dropWhile p).drop (l.takeWhile p).length := by
        rw [List.drop_left]
  _ = l.drop (l.takeWhile p).length := by rw [h]

theorem negLookahead_false_of {temp : List Char}
    (hno : ∀ q, startsWithL (("Steps:").toList) (temp.drop q) = false)
    (hlast : ∀ b, temp.getLast? = some b → pyIsSpace b = false) :
    ∀ e, e < temp.length → negLookahead temp e = false := by
  intro e he
  rw [negLookahead]
  have h1 : startsWithL (("Steps:").toList) ((temp.drop e).dropWhile pyIsSpace) = false := by
    rw [dropWhile_eq_drop, List.drop_drop]
    exact hno _
  have h2 : dollarAt temp e = false := by
    rw [dollarAt]
    have he1 : (e == temp.length) = false := by
      simp only [beq_eq_false_iff_ne, ne_eq]
      omega
    have he2 : (temp.getLast? == some '\n') = false := by
      cases hgl : temp.getLast? with
      | none => rfl
      | some b =>
        have hb := hlast b hgl
        simp only [beq_eq_false_iff_ne, ne_eq, Option.some.injEq]
        intro hbn
        rw [hbn] at hb
        cases hb
    simp [he1, he2]
  rw [h1, h2]
  rfl

theorem find?_append_of_none {p : Nat → Bool} {l1 : List Nat} (l2 : List Nat)
    (h : l1.find? p = none) : (l1 ++ l2).find? p = l2.find? p := by
  induction l1 with
  | nil => rfl
  | cons a t ih =>
    cases hpa : p a with
    | true =>
      rw [List.find?_cons_of_pos t hpa] at h
      cases h
    | false =>
      have hpa' : ¬ p a = true := by simp [hpa]
      rw [List.find?_cons_of_neg t hpa'] at h
      rw [List.cons_append, List.find?_cons_of_neg _ hpa']
      exact ih h

theorem lazyMatchEnd_eq_length {temp : List Char} {start : Nat}
    (hstart : start ≤ temp.length)
    (hfalse : ∀ e, e < temp.length → negLookahead temp e = false) :
    lazyMatchEnd temp start = temp.length := by
  rw [lazyMatchEnd]
  obtain ⟨m, hm⟩ : ∃ m, temp.length + 1 - start = m + 1 := ⟨temp.length - start, by omega⟩
  rw [hm, List.range_succ]
  have hnone : (List.range m).find? (fun k => negLookahead temp (start + k)) = none := by
    rw [List.find?_eq_none]
    intro x hx
    rw [List.mem_range] at hx
    have : start + x < temp.length := by omega
    rw [hfalse _ this]
    simp
  rw [find?_append_of_none _ hnone]
  have hpm : negLookahead temp (start + m) = true := by
    have hsm : start + m = temp.length := by omega
    rw [hsm, negLookahead, dollarAt]
    simp
  have hfind1 : List.find? (fun k => negLookahead temp (start + k)) [m] = some m :=
    List.find?_cons_of_pos [] hpm
  rw [hfind1]
  show start + m = temp.length
  omega

/-- Modelled from the claim of C4 (spec §4.3): `settingsText` is the suffix of
the flattened block starting at the first `"Steps:"`. -/
def specSettingsText (flat : List Char) : List Char :=
  match findSub (("Steps:").toList) flat with
  | some i => flat.drop i
  | none => []

/-- Modelled from the claim of C4: the (trimmed) remainder before the first
`"Steps:"`. -/
def specRemainder (flat : List Char) : List Char :=
  match findSub (("Steps:").toList) flat with
  | some i => pyStrip (flat.take i)
  | none => pyStrip flat

/-- Modelled from the amended claim of C4: `negativePrompt` is the text from
the first `"Negative prompt:"` to the end of the remainder, with every
occurrence of the label removed, trimmed; empty when the label is absent. -/
def specNegativePrompt (rem : List Char) : List Char :=
  match findSub negLabel rem with
  | some j => pyStrip (replaceAll negLabel [] (rem.drop j))
  | none => []

/-- Modelled from the claim of C4: `positivePrompt` is the trimmed text before
the first `"Negative prompt:"`, or the whole remainder when the label is
absent. -/
def specPositivePrompt (rem : List Char) : List Char :=
  match findSub negLabel rem with
  | some j => pyStrip (rem.take j)
  | none => pyStrip rem

theorem findModelGroup_first :
    ∀ (settings : List Char) (i : Nat),
      findSub (("Model: ").toList) settings = some i →
      ((settings.drop i).drop 7).takeWhile (fun c => c != ',') ≠ [] →
      findModelGroup settings =
        some (((settings.drop i).drop 7).takeWhile (fun c => c != ',')) := by
  intro settings
  induction settings with
  | nil =>
    intro i hi hne
    rw [findSub, findIdx?] at hi
    simp [startsWithL] at hi
  | cons c rest ih =>
    intro i hi hne
    rw [findSub, findIdx?] at hi
    by_cases hc : startsWithL (("Model: ").toList) (c :: rest) = true
    · rw [if_pos hc] at hi
      cases hi
      rw [findModelGroup, if_pos hc]
      simp only [List.drop_zero] at hne ⊢
      cases hg : ((c :: rest).drop 7).takeWhile (fun ch => ch != ',') with
      | nil => exact absurd hg hne
      | cons x xs => rfl
    · rw [if_neg hc] at hi
      cases hf : findIdx? (fun s => startsWithL (("Model: ").toList) s) rest with
      | none => rw [hf] at hi; cases hi
      | some j =>
        rw [hf] at hi
        simp only [Option.map_some'] at hi
        cases hi
        rw [findModelGroup, if_neg hc]
        have hdr : (c :: rest).drop (j + 1) = rest.drop j := rfl
        rw [hdr] at hne ⊢
        exact ih j (by rw [findSub]; exact hf) hne

/-- C4 (counterexample): on a block with two `"Negative prompt:"` labels the
claim's reading — the trimmed text after the (first) label up to `"Steps:"` —
would be `"b Negative prompt: c"`, but `str.replace` removes every occurrence
of the label, so the code produces `"b  c"`. -/
theorem C4_counterexample :
    (processRecord
        (("a Negative prompt: b Negative prompt: c Steps: 1, Sampler: x").toList)).negativePrompt =
      ("b  c").toList ∧
    (processRecord
        (("a Negative prompt: b Negative prompt: c Steps: 1, Sampler: x").toList)).negativePrompt ≠
      ("b Negative prompt: c").toList := by
  exact ⟨by decide, by decide⟩

theorem fieldSplitNegative_eq_spec {temp : List Char}
    (hno : ∀ q, startsWithL (("Steps:").toList) (temp.drop q) = false)
    (hlast : ∀ b, temp.getLast? = some b → pyIsSpace b = false) :
    fieldSplitNegative temp = (specNegativePrompt temp, specPositivePrompt temp) := by
  rw [fieldSplitNegative, specNegativePrompt, specPositivePrompt]
  split
  · rename_i j hj
    have hstart : j + negLabel.length ≤ temp.length := by
      have h1 := findSub_some_sound hj
      have h2 := startsWithL_length h1
      rw [List.length_drop] at h2
      have h3 : temp.drop j ≠ [] := startsWithL_ne_nil (by decide) h1
      have h4 : j < temp.length := by
        by_contra hge
        exact h3 (List.drop_eq_nil_of_le (by omega))
      omega
    have he : lazyMatchEnd temp (j + negLabel.length) = temp.length :=
      lazyMatchEnd_eq_length hstart (negLookahead_false_of hno hlast)
    rw [he]
    have hgrp : (temp.drop j).take (temp.length - j) = temp.drop j := by
      apply List.take_of_length_le
      rw [List.length_drop]
    simp only [hgrp]
  · rfl

/-- C4 (amended): the Field Splitter behaves as the claim states, except that
`str.replace` removes every occurrence of the `"Negative prompt:"` label, and
the model pattern matches the first `"Model: "` followed by at least one
non-comma character.  (1) Scenario B holds verbatim.  (2) For every stripped
flattened block containing `"Steps:"`: the settings text is exactly the
suffix from the first `"Steps:"` (no further trimming happens); the negative
prompt is the text from the first label to the end of the trimmed remainder
with every label occurrence removed, trimmed; the positive prompt is the
trimmed text before the label, or the whole remainder when the label is
absent.  (3) The model name is the trimmed maximal non-comma run after the
first `"Model: "` that is followed by a non-comma character. -/
theorem C4_amended_field_splitting :
    ((processRecord (("masterpiece, 1girl, Negative prompt: blurry, Steps: 20, Sampler: Euler a, Model: foo.safetensors").toList)).positivePrompt =
        ("masterpiece, 1girl,").toList ∧
     (processRecord (("masterpiece, 1girl, Negative prompt: blurry, Steps: 20, Sampler: Euler a, Model: foo.safetensors").toList)).negativePrompt =
        ("blurry,").toList ∧
     (processRecord (("masterpiece, 1girl, Negative prompt: blurry, Steps: 20, Sampler: Euler a, Model: foo.safetensors").toList)).otherSettings =
        ("Steps: 20, Sampler: Euler a, Model: foo.safetensors").toList ∧
     (processRecord (("masterpiece, 1girl, Negative prompt: blurry, Steps: 20, Sampler: Euler a, Model: foo.safetensors").toList)).modelName =
        ("foo.safetensors").toList) ∧
    (∀ flat, pyStrip flat = flat → occursIn (("Steps:").toList) flat →
      (fieldSplitSettings flat).1 = specSettingsText flat ∧
      (fieldSplitSettings flat).2 = specRemainder flat ∧
      fieldSplitNegative (fieldSplitSettings flat).2 =
        (specNegativePrompt (fieldSplitSettings flat).2,
         specPositivePrompt (fieldSplitSettings flat).2)) ∧
    (∀ settings i, findSub (("Model: ").toList) settings = some i →
      ((settings.drop i).drop 7).takeWhile (fun c => c != ',') ≠ [] →
      findModelName settings =
        pyStrip (((settings.drop i).drop 7).takeWhile (fun c => c != ','))) := by
  refine ⟨⟨by decide, by decide, by decide, by decide⟩, ?_, ?_⟩
  · intro flat hs hocc
    obtain ⟨i, hi⟩ := findSub_isSome_of_occurs hocc
    have hsound := findSub_some_sound hi
    have htemp : (fieldSplitSettings flat).2 = pyStrip (flat.take i) := by
      rw [fieldSplitSettings, hi]
    refine ⟨?_, ?_, ?_⟩
    · rw [fieldSplitSettings, specSettingsText, hi]
      exact pyStrip_drop_fixed hs hsound
    · rw [fieldSplitSettings, specRemainder, hi]
    · rw [htemp]
      exact fieldSplitNegative_eq_spec (no_occurs_before_first (by decide) hi)
        (fun b hb => pyStrip_last_nonspace hb)
  · intro settings i hi hne
    rw [findModelName, findModelGroup_first settings i hi hne]

/-- C4 amended witness: the general splitting statement and the model-name
statement evaluated at concrete inputs. -/
theorem C4_amended_witness :
    pyStrip (("x Steps: 1, Sampler: a").toList) = ("x Steps: 1, Sampler: a").toList ∧
    (fieldSplitSettings (("x Steps: 1, Sampler: a").toList)).1 =
      specSettingsText (("x Steps: 1, Sampler: a").toList) ∧
    findModelName (("Steps: 1, Model: m1, x").toList) = ("m1").toList := by
  refine ⟨by decide, ?_, ?_⟩
  · exact (C4_amended_field_splitting.2.1 (("x Steps: 1, Sampler: a").toList) (by decide)
      ⟨("x ").toList, (" 1, Sampler: a").toList, by decide⟩).1
  · have h := C4_amended_field_splitting.2.2 (("Steps: 1, Model: m1, x").toList) 10
      (by decide) (by decide)
    rw [h]
    decide
